import Mathlib

/-!
Verification of the PyPolyGuitar core against its natural-language
specification.  The Python source is shallowly embedded: samples and
spectrum magnitudes become rationals, numpy arrays become `List ℚ`,
stateful methods become state-passing functions, and `math.log2` becomes
`Real.logb 2`.  Each section below embeds one source file and is followed
by the theorems about it.
-/

set_option maxRecDepth 4000

namespace PyPolyGuitar

/-! ### Generic helpers for Python slicing and rounding -/

/-- Python slice `l[a:b]` (with `0 ≤ a ≤ b`). -/
def pySlice (l : List ℚ) (a b : ℕ) : List ℚ := (l.take b).drop a

/-- Python slice `l[-p:]` for a non-negative count `p` (note `l[-0:] = l`). -/
def sliceFromNeg (l : List ℚ) (p : ℕ) : List ℚ :=
  if p = 0 then l else l.drop (l.length - p)

/-- Numpy slice assignment `l[start:start+len(data)] = data`. -/
def setSlice (l : List ℚ) (start : ℕ) (data : List ℚ) : List ℚ :=
  l.take start ++ data ++ l.drop (start + data.length)

/-- Python 3 `round` on rationals: round-half-to-even (banker's rounding). -/
def pyRoundQ (q : ℚ) : ℤ :=
  if q - ⌊q⌋ = 1/2 then (if Even ⌊q⌋ then ⌊q⌋ else ⌊q⌋ + 1) else round q

/-- Python 3 `round` on reals: round-half-to-even (banker's rounding). -/
noncomputable def pyRoundR (x : ℝ) : ℤ :=
  if x - ⌊x⌋ = 1/2 then (if Even ⌊x⌋ then ⌊x⌋ else ⌊x⌋ + 1) else round x

/-- The last `k` elements of a list (all of it if `k` exceeds the length). -/
def lastN (k : ℕ) (l : List ℚ) : List ℚ := l.drop (l.length - k)

/-! ### `src/audio/ring_buffer.py` — class `RingBuffer` -/

structure RingBuffer where
  capacity : ℕ
  buffer : List ℚ
  write_index : ℕ
  is_full : Bool
deriving Repr, DecidableEq

/-- `RingBuffer.__init__`: zero storage, cursor 0, not full. -/
def RingBuffer.new (capacity : ℕ) : RingBuffer :=
  ⟨capacity, List.replicate capacity 0, 0, false⟩

/-- `RingBuffer.write`: truncate oversized chunks to the trailing `capacity`
samples, then write with wrap-around, mirroring the Python branch structure. -/
def RingBuffer.write (rb : RingBuffer) (data0 : List ℚ) : RingBuffer :=
  let data := if data0.length > rb.capacity then sliceFromNeg data0 rb.capacity else data0
  let dataLen := data.length
  let endIndex := rb.write_index + dataLen
  let rb1 : RingBuffer :=
    if endIndex ≤ rb.capacity then
      { rb with buffer := setSlice rb.buffer rb.write_index data, write_index := endIndex }
    else
      let firstPartLen := rb.capacity - rb.write_index
      let secondPartLen := dataLen - firstPartLen
      let buf1 := setSlice rb.buffer rb.write_index (data.take firstPartLen)
      let buf2 := setSlice buf1 0 (data.drop firstPartLen)
      { rb with buffer := buf2, write_index := secondPartLen, is_full := true }
  if rb1.write_index = rb1.capacity then { rb1 with write_index := 0, is_full := true } else rb1

/-- `RingBuffer.read_recent`: `none` models the raised `ValueError`;
the two `some` branches mirror the straight and wrap-around reads. -/
def RingBuffer.read_recent (rb : RingBuffer) (n_samples : ℕ) : Option (List ℚ) :=
  if n_samples > rb.capacity then none
  else if rb.write_index ≥ n_samples then
    some (pySlice rb.buffer (rb.write_index - n_samples) rb.write_index)
  else
    let part1Len := n_samples - rb.write_index
    let part1 := sliceFromNeg rb.buffer part1Len
    let part2 := rb.buffer.take rb.write_index
    some (part1 ++ part2)

/-- Folding a list of `write` calls over a buffer. -/
def writeAll (rb : RingBuffer) (chunks : List (List ℚ)) : RingBuffer :=
  chunks.foldl RingBuffer.write rb

/-! Provenance-tracking model of the numpy values built by `read_recent`:
a `view` aliases the ring buffer's storage, a `fresh` value is newly
allocated.  `np.ndarray.copy` and `np.concatenate` allocate. -/

inductive NpArr where
  | view (data : List ℚ)
  | fresh (data : List ℚ)
deriving Repr, DecidableEq

def NpArr.data : NpArr → List ℚ
  | .view d => d
  | .fresh d => d

def NpArr.isFresh : NpArr → Bool
  | .view _ => false
  | .fresh _ => true

/-- `ndarray.copy()`: allocates. -/
def npCopy (a : NpArr) : NpArr := .fresh a.data

/-- `np.concatenate((a, b))`: allocates. -/
def npConcat (a b : NpArr) : NpArr := .fresh (a.data ++ b.data)

/-- `RingBuffer.read_recent` with numpy allocation behaviour made explicit:
slices of `self.buffer` are views, the returned value is built by
`.copy()` (straight case) or `np.concatenate` (wrap case). -/
def RingBuffer.read_recent_np (rb : RingBuffer) (n_samples : ℕ) : Option NpArr :=
  if n_samples > rb.capacity then none
  else if rb.write_index ≥ n_samples then
    some (npCopy (.view (pySlice rb.buffer (rb.write_index - n_samples) rb.write_index)))
  else
    let part1Len := n_samples - rb.write_index
    let part1 : NpArr := .view (sliceFromNeg rb.buffer part1Len)
    let part2 : NpArr := .view (rb.buffer.take rb.write_index)
    some (npConcat part1 part2)

/-! Abstract view of the ring buffer used by the correctness proofs:
`window C s` is the chronological content (last `C` samples of the
zero-initialised storage followed by the whole write history `s`), and the
physical storage is that window rotated by the cursor position. -/

def window (C : ℕ) (s : List ℚ) : List ℚ := lastN C (List.replicate C 0 ++ s)

def rotated (win : List ℚ) (offset : ℕ) : List ℚ := win.drop offset ++ win.take offset

/-- Reachability invariant: the storage is the chronological window rotated
so that the oldest sample sits at the write cursor. -/
structure GoodRB (rb : RingBuffer) (s : List ℚ) : Prop where
  hw : rb.write_index < rb.capacity
  hbuf : rb.buffer = rotated (window rb.capacity s) (rb.capacity - rb.write_index)

/-! ### `src/dsp/numba_math.py` -/

/-- Python `int()` applied to a non-integral value: truncation toward zero. -/
def pyIntQ (q : ℚ) : ℤ := if q < 0 then -⌊-q⌋ else ⌊q⌋

/-- The scan `max_val = 0.0; for i in ...: if spectrum[i] > max_val: ...`
inside `spectral_whitening`. -/
def maxVal (spectrum : List ℚ) : ℚ :=
  spectrum.foldl (fun m x => if x > m then x else m) 0

/-- `spectral_whitening`: divide every bin by the running maximum when it
exceeds `1e-9`, else leave the spectrum untouched. -/
def spectral_whitening (spectrum : List ℚ) : List ℚ :=
  if maxVal spectrum > 1/1000000000 then
    spectrum.map (fun x => x / maxVal spectrum)
  else spectrum

/-- The peak search `for i in range(start_bin, len(w)): if w[i] > max_mag`
with initial `max_mag = -1.0`, `max_index = -1`. -/
def argmaxFrom (w : List ℚ) (startBin : ℕ) : ℚ × ℤ :=
  (List.range' startBin (w.length - startBin)).foldl
    (fun acc i => if w.getD i 0 > acc.1 then (w.getD i 0, (i : ℤ)) else acc)
    (-1, -1)

/-- One harmonic's suppression: `working[j] *= 0.1`, then `*= 0.3` on the
in-bounds neighbours, with the source's guards. -/
def suppressBin (w : List ℚ) (harmonicBin : ℤ) : List ℚ :=
  if harmonicBin < (w.length : ℤ) then
    let w1 := w.set harmonicBin.toNat (w.getD harmonicBin.toNat 0 * (1/10))
    let w2 :=
      if harmonicBin > 0 then
        w1.set (harmonicBin - 1).toNat (w1.getD (harmonicBin - 1).toNat 0 * (3/10))
      else w1
    if harmonicBin < (w.length : ℤ) - 1 then
      w2.set (harmonicBin + 1).toNat (w2.getD (harmonicBin + 1).toNat 0 * (3/10))
    else w2
  else w

/-- The `for h in range(1, num_harmonics + 1)` suppression loop. -/
def subtractHarmonics (w : List ℚ) (fundamentalFreq freqRes : ℚ) (numHarmonics : ℕ) : List ℚ :=
  (List.range' 1 numHarmonics).foldl
    (fun acc (h : ℕ) => suppressBin acc (pyRoundQ (fundamentalFreq * (h : ℚ) / freqRes)))
    w

/-- The `for _ in range(max_notes)` loop of `iterative_spectral_subtraction`,
with the working spectrum threaded explicitly; returns the detected list and
the final (mutated) spectrum. -/
def issLoop (sampleRate paddedSize minThreshold : ℚ) :
    ℕ → List ℚ → List ℚ → List ℚ × List ℚ
  | 0, w, acc => (acc, w)
  | fuel + 1, w, acc =>
    let freqRes := sampleRate / paddedSize
    let startBin := (pyIntQ ((40 : ℚ) / freqRes)).toNat + 1
    let r := argmaxFrom w startBin
    if r.1 < minThreshold ∨ r.2 = -1 then (acc, w)
    else
      let fundamentalFreq := (r.2 : ℚ) * freqRes
      let w' := subtractHarmonics w fundamentalFreq freqRes 10
      issLoop sampleRate paddedSize minThreshold fuel w' (acc ++ [fundamentalFreq])

/-- `iterative_spectral_subtraction`: the output list starts cleared (`[]`)
and is refilled by the loop. -/
def iterative_spectral_subtraction (spectrum : List ℚ) (sampleRate paddedSize : ℚ)
    (minThreshold : ℚ) (maxNotes : ℕ) : List ℚ :=
  (issLoop sampleRate paddedSize minThreshold maxNotes spectrum []).1

/-- Instrumented clone of the peak-picking loop recording, for each emitted
entry, the selected bin index and the magnitude read there before that
entry's suppression step. -/
def issTraceLoop (sampleRate paddedSize minThreshold : ℚ) :
    ℕ → List ℚ → List (ℤ × ℚ) → List (ℤ × ℚ)
  | 0, _, acc => acc
  | fuel + 1, w, acc =>
    let freqRes := sampleRate / paddedSize
    let startBin := (pyIntQ ((40 : ℚ) / freqRes)).toNat + 1
    let r := argmaxFrom w startBin
    if r.1 < minThreshold ∨ r.2 = -1 then acc
    else
      let fundamentalFreq := (r.2 : ℚ) * freqRes
      let w' := subtractHarmonics w fundamentalFreq freqRes 10
      issTraceLoop sampleRate paddedSize minThreshold fuel w' (acc ++ [(r.2, r.1)])

def issTrace (spectrum : List ℚ) (sampleRate paddedSize : ℚ)
    (minThreshold : ℚ) (maxNotes : ℕ) : List (ℤ × ℚ) :=
  issTraceLoop sampleRate paddedSize minThreshold maxNotes spectrum []

/-! ### `src/midi/interface.py` — class `MidiInterface` -/

inductive MidiMsg where
  | noteOn (note : ℤ) (velocity : ℕ)
  | noteOff (note : ℤ)
deriving Repr, DecidableEq

def MidiMsg.note : MidiMsg → ℤ
  | .noteOn n _ => n
  | .noteOff n => n

def MidiMsg.isOn : MidiMsg → Bool
  | .noteOn _ _ => true
  | .noteOff _ => false

/-- `MidiInterface` state: the (possibly absent) output port and the
`active_notes` dict, modelled as an insertion-ordered association list. -/
structure MidiInterface where
  port_open : Bool
  active_notes : List (ℤ × ℕ)
deriving Repr, DecidableEq

def dictKeys (l : List (ℤ × ℕ)) : List ℤ := l.map Prod.fst

/-- Python `d[k] = v` on a dict: replace in place or append. -/
def dictSet (l : List (ℤ × ℕ)) (k : ℤ) (v : ℕ) : List (ℤ × ℕ) :=
  if (dictKeys l).contains k then l.map (fun p => if p.1 = k then (k, v) else p)
  else l ++ [(k, v)]

/-- Python `if k in d: del d[k]`. -/
def dictRemove (l : List (ℤ × ℕ)) (k : ℤ) : List (ℤ × ℕ) :=
  l.filter (fun p => p.1 ≠ k)

/-- `MidiInterface._freq_to_midi`: `round(69 + 12*log2(freq/440))` as an
`int`; note the source applies no clamping. -/
noncomputable def _freq_to_midi (freq : ℚ) : ℤ :=
  if freq ≤ 0 then 0
  else pyRoundR (69 + 12 * Real.logb 2 ((freq : ℝ) / 440))

/-- `MidiInterface.note_on`: guarded by the open port and the 0..127 range;
emits the message and records the note. -/
def MidiInterface.note_on (m : MidiInterface) (note : ℤ) (velocity : ℕ) :
    MidiInterface × List MidiMsg :=
  if m.port_open = true ∧ 0 ≤ note ∧ note ≤ 127 then
    ({ m with active_notes := dictSet m.active_notes note velocity },
     [.noteOn note velocity])
  else (m, [])

/-- `MidiInterface.note_off`: same guard; emits the message and forgets the
note if it was active. -/
def MidiInterface.note_off (m : MidiInterface) (note : ℤ) :
    MidiInterface × List MidiMsg :=
  if m.port_open = true ∧ 0 ≤ note ∧ note ≤ 127 then
    ({ m with active_notes := dictRemove m.active_notes note }, [.noteOff note])
  else (m, [])

/-- `MidiInterface.update_notes`: build the incoming note set, switch off the
active notes that are no longer present (list computed up front, as in the
source), then switch on the new ones, checking membership against the
evolving dict. -/
noncomputable def MidiInterface.update_notes (m : MidiInterface)
    (detected_frequencies : List ℚ) : MidiInterface × List MidiMsg :=
  let current_notes := ((detected_frequencies.filter (fun f => 0 < f)).map _freq_to_midi).dedup
  let notes_to_off := (dictKeys m.active_notes).filter (fun n => ¬ current_notes.contains n)
  let afterOff := notes_to_off.foldl
    (fun (acc : MidiInterface × List MidiMsg) n =>
      let r := acc.1.note_off n
      (r.1, acc.2 ++ r.2)) (m, [])
  current_notes.foldl
    (fun (acc : MidiInterface × List MidiMsg) n =>
      if (dictKeys acc.1.active_notes).contains n then acc
      else
        let r := acc.1.note_on n 80
        (r.1, acc.2 ++ r.2)) afterOff

/-- A sequence of tracker ticks, concatenating the emitted messages. -/
noncomputable def runUpdates (m : MidiInterface) (ticks : List (List ℚ)) :
    MidiInterface × List MidiMsg :=
  ticks.foldl (fun acc freqs =>
    let r := acc.1.update_notes freqs
    (r.1, acc.2 ++ r.2)) (m, [])

/-- Consume a boolean trace expecting strict alternation beginning with `e`;
returns the next expected value, or `none` on violation. -/
def altRun : Bool → List Bool → Option Bool
  | e, [] => some e
  | e, b :: rest => if b = e then altRun (!e) rest else none

/-- The on/off trace of a single note inside a message stream. -/
def msgsFor (n : ℤ) (l : List MidiMsg) : List Bool :=
  (l.filter (fun msg => msg.note = n)).map MidiMsg.isOn

/-- Well-paired stream: per note, the messages strictly alternate
NoteOn, NoteOff, NoteOn, … starting with NoteOn. -/
def wellPaired (l : List MidiMsg) : Prop :=
  ∀ n : ℤ, (altRun true (msgsFor n l)).isSome

/-- Induction invariant tying tracker state to the emitted history: the
dict keys are unique, and per note the emitted trace alternates validly
and next expects NoteOn exactly when the note is inactive. -/
def trackerInv (m : MidiInterface) (msgs : List MidiMsg) : Prop :=
  (dictKeys m.active_notes).Nodup ∧
  ∀ n : ℤ, altRun true (msgsFor n msgs) = some (!(dictKeys m.active_notes).contains n)

/-! ## Proofs

### Ring buffer: list bookkeeping -/

lemma lastN_length {k : ℕ} {l : List ℚ} (h : k ≤ l.length) : (lastN k l).length = k := by
  simp [lastN]; omega

lemma window_length (C : ℕ) (s : List ℚ) : (window C s).length = C := by
  simp only [window, lastN, List.length_drop, List.length_append, List.length_replicate]
  omega

lemma rotated_length (win : List ℚ) (o : ℕ) : (rotated win o).length = win.length := by
  simp [rotated]; omega

lemma lastN_self {l : List ℚ} : lastN l.length l = l := by
  simp [lastN]

lemma lastN_of_length_le {k : ℕ} {l : List ℚ} (h : l.length ≤ k) : lastN k l = l := by
  rw [lastN, show l.length - k = 0 by omega, List.drop_zero]

lemma lastN_append_right {k : ℕ} (A d : List ℚ) (h : k ≤ A.length) :
    lastN k (A ++ d) = lastN k (lastN k A ++ d) := by
  simp only [lastN, List.drop_append_eq_append_drop, List.length_append, List.length_drop,
    List.drop_drop]
  congr 2 <;> omega

lemma lastN_append_ge {k : ℕ} (X d : List ℚ) (h : k ≤ d.length) :
    lastN k (X ++ d) = lastN k d := by
  simp only [lastN, List.drop_append_eq_append_drop, List.length_append]
  rw [List.drop_eq_nil_of_le (by omega)]
  simp only [List.nil_append]
  congr 1
  omega

lemma window_append (C : ℕ) (s d : List ℚ) :
    window C (s ++ d) = lastN C (window C s ++ d) := by
  have h : List.replicate (C : ℕ) (0 : ℚ) ++ (s ++ d) = (List.replicate C 0 ++ s) ++ d :=
    (List.append_assoc _ _ _).symm
  rw [window, h, lastN_append_right _ _ (by simp), window]

lemma lastN_full_append (win d : List ℚ) (h : d.length ≤ win.length) :
    lastN win.length (win ++ d) = win.drop d.length ++ d := by
  rw [lastN, List.length_append, show win.length + d.length - win.length = d.length by omega]
  exact List.drop_append_of_le_length (by omega)

lemma sliceFromNeg_spec (d : List ℚ) (C : ℕ) (hC : 1 ≤ C) (h : C < d.length) :
    sliceFromNeg d C = lastN C d ∧ (sliceFromNeg d C).length = C := by
  constructor
  · rw [sliceFromNeg, if_neg (by omega), lastN]
  · rw [sliceFromNeg, if_neg (by omega)]
    simp
    omega

/-- `RingBuffer.write` with the intermediate `let`s named, for rewriting. -/
lemma write_unfold (rb : RingBuffer) (d : List ℚ) :
    rb.write d =
      (let data := if d.length > rb.capacity then sliceFromNeg d rb.capacity else d
       let endIndex := rb.write_index + data.length
       let rb1 : RingBuffer :=
         if endIndex ≤ rb.capacity then
           { rb with buffer := setSlice rb.buffer rb.write_index data, write_index := endIndex }
         else
           let firstPartLen := rb.capacity - rb.write_index
           let secondPartLen := data.length - firstPartLen
           let buf1 := setSlice rb.buffer rb.write_index (data.take firstPartLen)
           let buf2 := setSlice buf1 0 (data.drop firstPartLen)
           { rb with buffer := buf2, write_index := secondPartLen, is_full := true }
       if rb1.write_index = rb1.capacity then { rb1 with write_index := 0, is_full := true }
       else rb1) := rfl

lemma write_capacity (rb : RingBuffer) (d : List ℚ) : (rb.write d).capacity = rb.capacity := by
  rw [write_unfold]
  dsimp only
  split <;> split <;> split <;> rfl

/-- The single-write step of the reachability invariant. -/
lemma write_good {rb : RingBuffer} {s : List ℚ} (hC : 1 ≤ rb.capacity)
    (hg : GoodRB rb s) (d : List ℚ) : GoodRB (rb.write d) (s ++ d) := by
  obtain ⟨hw, hbuf⟩ := hg
  have hwinlen : (window rb.capacity s).length = rb.capacity := window_length _ s
  have hblen : rb.buffer.length = rb.capacity := by
    rw [hbuf, rotated_length, hwinlen]
  rw [write_unfold]
  dsimp only
  set C := rb.capacity with hCdef
  set w := rb.write_index with hwdef
  set win := window C s with hwindef
  set data : List ℚ := if d.length > C then sliceFromNeg d C else d with hdatadef
  have hdlen : data.length ≤ C := by
    rw [hdatadef]
    split
    · rename_i hgt
      exact le_of_eq (sliceFromNeg_spec d C hC (by omega)).2
    · omega
  -- the new chronological window
  have hwin' : window C (s ++ d) = win.drop data.length ++ data := by
    have h1 : window C (s ++ d) = lastN C (win ++ data) := by
      rw [window_append, ← hwindef, hdatadef]
      split
      · rename_i hgt
        obtain ⟨he, hl⟩ := sliceFromNeg_spec d C hC (by omega)
        rw [lastN_append_ge _ _ (by omega), he,
          lastN_append_ge _ _ (by rw [← he]; omega)]
        conv_rhs => rw [lastN_of_length_le (by rw [← he]; omega)]
      · rfl
    rw [h1, ← hwinlen, lastN_full_append _ _ (by rw [hwinlen]; omega)]
  have hbtake : rb.buffer.take w = win.drop (C - w) := by
    rw [hbuf, rotated]
    exact List.take_left' (by rw [List.length_drop, hwinlen]; omega)
  have hdroplen : (win.drop data.length).length = C - data.length := by
    rw [List.length_drop, hwinlen]
  by_cases hcase : w + data.length ≤ C
  · -- straight write
    rw [if_pos hcase]
    by_cases hfull : w + data.length = C
    · -- the chunk exactly fills the buffer: cursor resets to 0
      rw [if_pos (by exact hfull)]
      refine ⟨by show 0 < C; omega, ?_⟩
      show setSlice rb.buffer w data = rotated (window C (s ++ d)) (C - 0)
      have e1 : (win.drop data.length ++ data).drop C = [] :=
        List.drop_eq_nil_of_le (by rw [List.length_append, hdroplen]; omega)
      have e2 : (win.drop data.length ++ data).take C = win.drop data.length ++ data :=
        List.take_of_length_le (by rw [List.length_append, hdroplen]; omega)
      have e3 : rb.buffer.drop (w + data.length) = [] :=
        List.drop_eq_nil_of_le (by omega)
      rw [hwin', Nat.sub_zero, rotated, e1, e2, List.nil_append, setSlice, hbtake, e3,
        List.append_nil, show data.length = C - w by omega]
    · rw [if_neg (by exact hfull)]
      refine ⟨by show w + data.length < C; omega, ?_⟩
      show setSlice rb.buffer w data = rotated (window C (s ++ d)) (C - (w + data.length))
      have hbdrop : rb.buffer.drop (w + data.length) =
          (win.drop data.length).take (C - (w + data.length)) := by
        rw [← List.drop_drop, hbuf, rotated,
          List.drop_left' (by rw [List.length_drop, hwinlen]; omega),
          List.drop_take, show C - w - data.length = C - (w + data.length) by omega]
      have hA : (win.drop data.length ++ data).drop (C - (w + data.length)) =
          win.drop (C - w) ++ data := by
        rw [List.drop_append_eq_append_drop, List.drop_drop, hdroplen,
          show C - (w + data.length) - (C - data.length) = 0 by omega, List.drop_zero,
          show data.length + (C - (w + data.length)) = C - w by omega]
      have hB : (win.drop data.length ++ data).take (C - (w + data.length)) =
          (win.drop data.length).take (C - (w + data.length)) :=
        List.take_append_of_le_length (by rw [hdroplen]; omega)
      rw [hwin', rotated, hA, hB, setSlice, hbtake, hbdrop, List.append_assoc]
  · -- wrap-around write
    rw [if_neg hcase]
    have hfirst : (data.take (C - w)).length = C - w := by
      rw [List.length_take]; omega
    have hsecond : (data.drop (C - w)).length = data.length - (C - w) := by
      rw [List.length_drop]
    have hbuf1 : setSlice rb.buffer w (data.take (C - w)) =
        win.drop (C - w) ++ data.take (C - w) := by
      have e4 : rb.buffer.drop (w + (data.take (C - w)).length) = [] :=
        List.drop_eq_nil_of_le (by rw [hfirst]; omega)
      rw [setSlice, e4, hbtake, List.append_nil]
    have hlt : data.length - (C - w) < C := by omega
    rw [if_neg (by
      show data.length - (C - w) ≠ C
      omega)]
    refine ⟨hlt, ?_⟩
    show setSlice (setSlice rb.buffer w (data.take (C - w))) 0 (data.drop (C - w)) =
      rotated (window C (s ++ d)) (C - (data.length - (C - w)))
    have hbuf2 : setSlice (setSlice rb.buffer w (data.take (C - w))) 0 (data.drop (C - w)) =
        data.drop (C - w) ++ (win.drop data.length ++ data.take (C - w)) := by
      rw [hbuf1, setSlice, List.take_zero, List.nil_append, Nat.zero_add, hsecond,
        List.drop_append_eq_append_drop, List.drop_drop, List.length_drop, hwinlen,
        show C - w + (data.length - (C - w)) = data.length by omega,
        show data.length - (C - w) - (C - (C - w)) = 0 by omega, List.drop_zero]
    have hA2 : (win.drop data.length ++ data).drop (C - (data.length - (C - w))) =
        data.drop (C - w) := by
      rw [List.drop_append_eq_append_drop,
        List.drop_eq_nil_of_le (by rw [hdroplen]; omega), List.nil_append, hdroplen,
        show C - (data.length - (C - w)) - (C - data.length) = C - w by omega]
    have hB2 : (win.drop data.length ++ data).take (C - (data.length - (C - w))) =
        win.drop data.length ++ data.take (C - w) := by
      rw [List.take_append_eq_append_take, List.take_of_length_le (by rw [hdroplen]; omega),
        hdroplen, show C - (data.length - (C - w)) - (C - data.length) = C - w by omega]
    rw [hwin', rotated, hA2, hB2, hbuf2]

/-- A fresh buffer satisfies the invariant with empty history. -/
lemma good_new {C : ℕ} (hC : 1 ≤ C) : GoodRB (RingBuffer.new C) [] := by
  refine ⟨hC, ?_⟩
  show List.replicate C (0 : ℚ) = rotated (window C []) (C - 0)
  rw [Nat.sub_zero, window, List.append_nil, rotated]
  have h1 : lastN C (List.replicate C (0 : ℚ)) = List.replicate C 0 := by
    rw [lastN, List.length_replicate, Nat.sub_self, List.drop_zero]
  rw [h1, List.drop_eq_nil_of_le (by simp), List.nil_append,
    List.take_of_length_le (by simp)]

/-- The invariant after any sequence of writes. -/
lemma writeAll_good {rb : RingBuffer} {s : List ℚ} (hC : 1 ≤ rb.capacity)
    (hg : GoodRB rb s) (chunks : List (List ℚ)) :
    GoodRB (writeAll rb chunks) (s ++ chunks.flatten)
    ∧ (writeAll rb chunks).capacity = rb.capacity := by
  induction chunks generalizing rb s with
  | nil =>
      constructor
      · simpa [writeAll] using hg
      · rfl
  | cons c cs ih =>
      have hcap := write_capacity rb c
      have hstep := write_good hC hg c
      have hrec := @ih (rb.write c) (s ++ c) (by omega) hstep
      constructor
      · have : s ++ c ++ cs.flatten = s ++ (c :: cs).flatten := by
          rw [List.flatten_cons, List.append_assoc]
        rw [← this]
        exact hrec.1
      · show (writeAll (rb.write c) cs).capacity = rb.capacity
        rw [hrec.2, hcap]

/-- `read_recent` reads the last `k` samples of the chronological window. -/
lemma read_recent_good {rb : RingBuffer} {s : List ℚ} (hg : GoodRB rb s) {k : ℕ}
    (hk : k ≤ rb.capacity) :
    rb.read_recent k = some (lastN k (window rb.capacity s)) := by
  obtain ⟨hw, hbuf⟩ := hg
  have hwinlen : (window rb.capacity s).length = rb.capacity := window_length _ s
  have hblen : rb.buffer.length = rb.capacity := by
    rw [hbuf, rotated_length, hwinlen]
  set C := rb.capacity with hCdef
  set w := rb.write_index with hwdef
  set win := window C s with hwindef
  have hbtake : rb.buffer.take w = win.drop (C - w) := by
    rw [hbuf, rotated]
    exact List.take_left' (by rw [List.length_drop, hwinlen]; omega)
  rw [RingBuffer.read_recent, if_neg (by omega)]
  by_cases hwk : w ≥ k
  · rw [if_pos hwk]
    congr 1
    rw [pySlice, hbtake, List.drop_drop, lastN, hwinlen,
      show C - w + (w - k) = C - k by omega]
  · rw [if_neg hwk]
    dsimp only
    rw [← hwdef]
    congr 1
    have hp : ¬ (k - w = 0) := by omega
    have hpart1 : rb.buffer.drop (rb.buffer.length - (k - w)) =
        (win.drop (C - k)).take (k - w) := by
      rw [hblen, hbuf, rotated, List.drop_append_eq_append_drop]
      have e1 : (win.drop (C - w)).drop (C - (k - w)) = [] :=
        List.drop_eq_nil_of_le (by rw [List.length_drop, hwinlen]; omega)
      rw [e1, List.nil_append, List.length_drop, hwinlen,
        show C - (k - w) - (C - (C - w)) = C - k by omega, List.drop_take,
        show C - w - (C - k) = k - w by omega]
    show sliceFromNeg rb.buffer (k - w) ++ rb.buffer.take w = lastN k win
    rw [sliceFromNeg, if_neg hp, hpart1, hbtake, lastN, hwinlen,
      show C - w = C - k + (k - w) by omega, ← List.drop_drop, List.take_append_drop]

lemma lastN_lastN {k C : ℕ} (l : List ℚ) (hk : k ≤ C) : lastN k (lastN C l) = lastN k l := by
  rw [lastN, lastN, lastN, List.length_drop, List.drop_drop]
  congr 1
  omega

/-- The last `k` of the chronological window: the history's last `k`
samples, zero-padded on the left while the history is short. -/
lemma lastN_window (C k : ℕ) (s : List ℚ) (hk : k ≤ C) :
    lastN k (window C s) = List.replicate (k - s.length) (0 : ℚ) ++ lastN k s := by
  rw [window, lastN_lastN _ hk, lastN, lastN, List.length_append, List.length_replicate,
    List.drop_append_eq_append_drop, List.drop_replicate, List.length_replicate]
  congr 2 <;> omega

/-- C3 (claim): after any write history whose concatenation is `s`, reading
`k ≤ C` returns the last `k` samples written, zero-padded on the left when
fewer than `k` samples have been written; in particular writing
`[0, …, 2C-1]` and reading `C` yields `[C, …, 2C-1]`. -/
theorem read_recent_returns_last_k (C : ℕ) (hC : 1 ≤ C) (chunks : List (List ℚ)) (k : ℕ)
    (hk : k ≤ C) :
    ((writeAll (RingBuffer.new C) chunks).read_recent k =
      some (List.replicate (k - chunks.flatten.length) (0 : ℚ) ++ lastN k chunks.flatten))
    ∧ ((writeAll (RingBuffer.new C) [(List.range (2 * C)).map (fun i : ℕ => (i : ℚ))]).read_recent C =
      some (((List.range (2 * C)).map (fun i : ℕ => (i : ℚ))).drop C)) := by
  have main : ∀ (cks : List (List ℚ)) (j : ℕ), j ≤ C →
      (writeAll (RingBuffer.new C) cks).read_recent j =
        some (List.replicate (j - cks.flatten.length) (0 : ℚ) ++ lastN j cks.flatten) := by
    intro cks j hj
    obtain ⟨hg, hcap⟩ := @writeAll_good (RingBuffer.new C) [] hC (good_new hC) cks
    rw [List.nil_append] at hg
    have hcapC : (writeAll (RingBuffer.new C) cks).capacity = C := hcap
    rw [read_recent_good hg (by rw [hcapC]; omega), hcapC, lastN_window C j _ hj]
  refine ⟨main chunks k hk, ?_⟩
  have h2 := main [(List.range (2 * C)).map (fun i : ℕ => (i : ℚ))] C (le_refl C)
  have hlen : ((List.range (2 * C)).map (fun i : ℕ => (i : ℚ))).length = 2 * C := by
    rw [List.length_map, List.length_range]
  have hfl : ([(List.range (2 * C)).map (fun i : ℕ => (i : ℚ))] : List (List ℚ)).flatten =
      (List.range (2 * C)).map (fun i : ℕ => (i : ℚ)) := by
    simp
  rw [h2, hfl]
  congr 1
  rw [hlen, show C - 2 * C = 0 by omega, List.replicate_zero, List.nil_append, lastN, hlen,
    show 2 * C - C = C by omega]

/-- C3 witness: capacity 3, one write of [0,…,5], reading 3 gives [3,4,5]. -/
theorem read_recent_returns_last_k_witness :
    (writeAll (RingBuffer.new 3) [[0, 1, 2, 3, 4, 5]]).read_recent 3 = some [3, 4, 5] := by
  have h := (read_recent_returns_last_k 3 (by decide) [[0, 1, 2, 3, 4, 5]] 3 (by decide)).1
  rw [h]
  rfl

/-- C7 (claim): `read_recent k` fails exactly when `k` exceeds the capacity,
and on success the snapshot has length exactly `k`. -/
theorem read_recent_error_iff (rb : RingBuffer) (k : ℕ)
    (hlen : rb.buffer.length = rb.capacity) (hw : rb.write_index ≤ rb.capacity) :
    (rb.read_recent k = none ↔ rb.capacity < k)
    ∧ (∀ out, rb.read_recent k = some out → out.length = k) := by
  constructor
  · constructor
    · intro h
      by_contra hlt
      rw [RingBuffer.read_recent, if_neg (by omega)] at h
      by_cases hwk : rb.write_index ≥ k
      · rw [if_pos hwk] at h
        exact Option.noConfusion h
      · rw [if_neg hwk] at h
        exact Option.noConfusion h
    · intro h
      rw [RingBuffer.read_recent, if_pos (by omega)]
  · intro out hout
    rw [RingBuffer.read_recent] at hout
    by_cases hbig : k > rb.capacity
    · rw [if_pos hbig] at hout
      exact Option.noConfusion hout
    · rw [if_neg hbig] at hout
      by_cases hwk : rb.write_index ≥ k
      · rw [if_pos hwk] at hout
        have := Option.some.inj hout
        rw [← this, pySlice, List.length_drop, List.length_take]
        omega
      · rw [if_neg hwk] at hout
        dsimp only at hout
        have := Option.some.inj hout
        rw [← this, List.length_append, List.length_take, sliceFromNeg,
          if_neg (by omega), List.length_drop]
        omega

/-- C7 witness: a capacity-2 buffer rejects a request for 3 samples. -/
theorem read_recent_error_iff_witness :
    ((RingBuffer.new 2).read_recent 3 = none ↔ (RingBuffer.new 2).capacity < 3)
    ∧ (∀ out, (RingBuffer.new 2).read_recent 3 = some out → out.length = 3) :=
  read_recent_error_iff (RingBuffer.new 2) 3 (by decide) (by decide)

/-- C8 (claim): the snapshot returned by `read_recent` is freshly allocated
(built by `.copy()` or `np.concatenate`, never a view of the storage), and
its contents agree with the value-level `read_recent`. -/
theorem read_recent_fresh (rb : RingBuffer) (k : ℕ) :
    ((rb.read_recent_np k).map NpArr.data = rb.read_recent k)
    ∧ (∀ arr, rb.read_recent_np k = some arr → arr.isFresh = true) := by
  constructor
  · rw [RingBuffer.read_recent_np, RingBuffer.read_recent]
    by_cases h1 : k > rb.capacity
    · rw [if_pos h1, if_pos h1]
      rfl
    · rw [if_neg h1, if_neg h1]
      by_cases h2 : rb.write_index ≥ k
      · rw [if_pos h2, if_pos h2]
        rfl
      · rw [if_neg h2, if_neg h2]
        rfl
  · intro arr harr
    rw [RingBuffer.read_recent_np] at harr
    by_cases h1 : k > rb.capacity
    · rw [if_pos h1] at harr
      exact Option.noConfusion harr
    · rw [if_neg h1] at harr
      by_cases h2 : rb.write_index ≥ k
      · rw [if_pos h2] at harr
        rw [← Option.some.inj harr]
        rfl
      · rw [if_neg h2] at harr
        rw [← Option.some.inj harr]
        rfl

/-- C8 witness: a concrete snapshot is freshly allocated. -/
theorem read_recent_fresh_witness :
    (((RingBuffer.new 3).read_recent_np 2).map NpArr.data = (RingBuffer.new 3).read_recent 2)
    ∧ (NpArr.fresh [0, 0]).isFresh = true :=
  ⟨(read_recent_fresh (RingBuffer.new 3) 2).1,
   (read_recent_fresh (RingBuffer.new 3) 2).2 (NpArr.fresh [0, 0]) (by rfl)⟩

/-! ### Spectral whitening -/

lemma foldl_max_le_init (l : List ℚ) (a : ℚ) :
    a ≤ l.foldl (fun m x => if x > m then x else m) a := by
  induction l generalizing a with
  | nil => simp
  | cons y ys ih =>
      simp only [List.foldl_cons]
      by_cases h : y > a
      · rw [if_pos h]
        exact le_trans (le_of_lt h) (ih y)
      · rw [if_neg h]
        exact ih a

lemma foldl_max_ge (l : List ℚ) (a x : ℚ) (hx : x ∈ l) :
    x ≤ l.foldl (fun m x => if x > m then x else m) a := by
  induction l generalizing a with
  | nil => cases hx
  | cons y ys ih =>
      simp only [List.foldl_cons]
      rcases List.mem_cons.mp hx with h | h
      · subst h
        refine le_trans ?_ (foldl_max_le_init ys _)
        by_cases hyx : x > a
        · rw [if_pos hyx]
        · rw [if_neg hyx]
          exact le_of_not_lt hyx
      · exact ih _ h

lemma foldl_max_mem (l : List ℚ) (a : ℚ) :
    l.foldl (fun m x => if x > m then x else m) a = a ∨
    l.foldl (fun m x => if x > m then x else m) a ∈ l := by
  induction l generalizing a with
  | nil => exact Or.inl rfl
  | cons y ys ih =>
      simp only [List.foldl_cons]
      rcases ih (if y > a then y else a) with h | h
      · by_cases hy : y > a
        · right
          rw [h, if_pos hy]
          exact List.mem_cons_self y ys
        · left
          rw [h, if_neg hy]
      · right
        exact List.mem_cons_of_mem _ h

/-- C6 (claim): whitening leaves the spectrum untouched when its maximum is
at most 1e-9, and otherwise divides every bin by the maximum, which yields a
spectrum inside [0,1] containing the value 1 (for non-negative input). -/
theorem spectral_whitening_spec (spectrum : List ℚ) (hnn : ∀ x ∈ spectrum, 0 ≤ x) :
    ((∀ x ∈ spectrum, x ≤ 1/1000000000) → spectral_whitening spectrum = spectrum)
    ∧ (∀ x ∈ spectrum, 1/1000000000 < x →
        spectral_whitening spectrum = spectrum.map (fun y => y / maxVal spectrum)
        ∧ (1 : ℚ) ∈ spectral_whitening spectrum
        ∧ ∀ y ∈ spectral_whitening spectrum, 0 ≤ y ∧ y ≤ 1) := by
  constructor
  · intro hsmall
    have hle : maxVal spectrum ≤ 1/1000000000 := by
      rcases foldl_max_mem spectrum 0 with h | h
      · rw [maxVal, h]
        norm_num
      · exact hsmall _ h
    rw [spectral_whitening, if_neg (not_lt.mpr hle)]
  · intro x hx hxgt
    have hmax_ge : x ≤ maxVal spectrum := foldl_max_ge spectrum 0 x hx
    have hgt : maxVal spectrum > 1/1000000000 := lt_of_lt_of_le hxgt hmax_ge
    have hpos : 0 < maxVal spectrum := lt_trans (by norm_num) hgt
    have hmem : maxVal spectrum ∈ spectrum := by
      rcases foldl_max_mem spectrum 0 with h | h
      · exfalso
        rw [maxVal] at hpos
        rw [h] at hpos
        exact lt_irrefl 0 hpos
      · exact h
    refine ⟨by rw [spectral_whitening, if_pos hgt], ?_, ?_⟩
    · rw [spectral_whitening, if_pos hgt]
      exact List.mem_map.mpr ⟨maxVal spectrum, hmem, div_self (ne_of_gt hpos)⟩
    · intro y hy
      rw [spectral_whitening, if_pos hgt] at hy
      obtain ⟨z, hz, rfl⟩ := List.mem_map.mp hy
      exact ⟨div_nonneg (hnn z hz) (le_of_lt hpos),
        div_le_one_of_le₀ (foldl_max_ge spectrum 0 z hz) (le_of_lt hpos)⟩

/-- C6 witness: whitening [1/2, 2] divides by the maximum 2, giving [1/4, 1]. -/
theorem spectral_whitening_spec_witness :
    spectral_whitening [1/2, 2] = ([1/2, 2] : List ℚ).map (fun y => y / maxVal [1/2, 2])
    ∧ (1 : ℚ) ∈ spectral_whitening [1/2, 2]
    ∧ ∀ y ∈ spectral_whitening [1/2, 2], 0 ≤ y ∧ y ≤ 1 :=
  (spectral_whitening_spec [1/2, 2] (by norm_num)).2 2 (by norm_num) (by norm_num)

/-! ### Peak picker -/

lemma suppressBin_length (w : List ℚ) (hb : ℤ) : (suppressBin w hb).length = w.length := by
  rw [suppressBin]
  split
  · dsimp only
    split <;> split <;> simp
  · rfl

lemma subtractHarmonics_length (w : List ℚ) (f r : ℚ) (n : ℕ) :
    (subtractHarmonics w f r n).length = w.length := by
  rw [subtractHarmonics]
  generalize List.range' 1 n = l
  induction l generalizing w with
  | nil => rfl
  | cons h t ih =>
      rw [List.foldl_cons, ih, suppressBin_length]

lemma argmax_fold_spec (w : List ℚ) (start : ℕ) (l : List ℕ)
    (hl : ∀ i ∈ l, start ≤ i ∧ i < w.length) :
    ∀ acc : ℚ × ℤ,
      (acc = (-1, -1) ∨ ∃ i : ℕ, acc = (w.getD i 0, (i : ℤ)) ∧ start ≤ i ∧ i < w.length) →
      (l.foldl (fun acc i => if w.getD i 0 > acc.1 then (w.getD i 0, (i : ℤ)) else acc) acc
          = (-1, -1)
        ∨ ∃ i : ℕ, l.foldl (fun acc i => if w.getD i 0 > acc.1 then (w.getD i 0, (i : ℤ)) else acc)
            acc = (w.getD i 0, (i : ℤ)) ∧ start ≤ i ∧ i < w.length) := by
  induction l with
  | nil => intro acc hacc; exact hacc
  | cons j t ih =>
      intro acc hacc
      rw [List.foldl_cons]
      refine ih (fun i hi => hl i (List.mem_cons_of_mem _ hi)) _ ?_
      by_cases hj : w.getD j 0 > acc.1
      · rw [if_pos hj]
        exact Or.inr ⟨j, rfl, (hl j (List.mem_cons_self j t)).1, (hl j (List.mem_cons_self j t)).2⟩
      · rw [if_neg hj]
        exact hacc

/-- `argmaxFrom` either fails (`(-1, -1)`) or returns the value and index of
a bin in `[startBin, length)`. -/
lemma argmaxFrom_spec (w : List ℚ) (start : ℕ) :
    argmaxFrom w start = (-1, -1)
    ∨ ∃ i : ℕ, argmaxFrom w start = (w.getD i 0, (i : ℤ)) ∧ start ≤ i ∧ i < w.length := by
  rw [argmaxFrom]
  exact argmax_fold_spec w start _
    (fun i hi => by
      have := List.mem_range'_1.mp hi
      omega)
    _ (Or.inl rfl)

lemma getD_replicate_zero (n i : ℕ) : (List.replicate n (0 : ℚ)).getD i 0 = 0 := by
  rcases lt_or_ge i n with h | h
  · rw [List.getD_eq_getElem?_getD, List.getElem?_eq_getElem (by simpa using h)]
    simp
  · rw [List.getD_eq_getElem?_getD, List.getElem?_eq_none (by simpa using h)]
    rfl

/-- Length bound for the peeling loop. -/
lemma issLoop_length (sr P thr : ℚ) :
    ∀ (fuel : ℕ) (w acc : List ℚ),
      (issLoop sr P thr fuel w acc).1.length ≤ acc.length + fuel := by
  intro fuel
  induction fuel with
  | zero => intro w acc; simp [issLoop]
  | succ n ih =>
      intro w acc
      rw [issLoop]
      dsimp only
      split
      · simp
      · refine le_trans (ih _ _) ?_
        rw [List.length_append]
        simp
        omega

/-- Every frequency emitted by the peeling loop came from the accumulator or
from a bin at or above the start bin. -/
lemma issLoop_mem (sr P thr : ℚ) (B : ℕ) :
    ∀ (fuel : ℕ) (w acc : List ℚ), w.length = B →
      ∀ f ∈ (issLoop sr P thr fuel w acc).1, f ∈ acc ∨
        ∃ i : ℕ, (pyIntQ ((40 : ℚ) / (sr / P))).toNat + 1 ≤ i ∧ i < B
          ∧ f = (i : ℚ) * (sr / P) := by
  intro fuel
  induction fuel with
  | zero => intro w acc hw f hf; exact Or.inl hf
  | succ n ih =>
      intro w acc hw f hf
      rw [issLoop] at hf
      dsimp only at hf
      split at hf
      · exact Or.inl hf
      · rename_i hbreak
        have hmem := ih (subtractHarmonics w ((argmaxFrom w
            ((pyIntQ ((40:ℚ) / (sr / P))).toNat + 1)).2 * (sr / P)) (sr / P) 10)
          (acc ++ [((argmaxFrom w ((pyIntQ ((40:ℚ) / (sr / P))).toNat + 1)).2 : ℚ) * (sr / P)])
          (by rw [subtractHarmonics_length, hw]) f hf
        rcases hmem with hin | hex
        · rcases List.mem_append.mp hin with h | h
          · exact Or.inl h
          · rcases argmaxFrom_spec w ((pyIntQ ((40:ℚ) / (sr / P))).toNat + 1) with hnone | ⟨i, hi, h1, h2⟩
            · exfalso
              rw [hnone] at hbreak
              exact hbreak (Or.inr rfl)
            · right
              refine ⟨i, h1, by omega, ?_⟩
              have : f = ((argmaxFrom w ((pyIntQ ((40:ℚ) / (sr / P))).toNat + 1)).2 : ℚ) * (sr / P) := by
                simpa using h
              rw [this, hi]
              simp
        · exact Or.inr hex

/-- The loop and its instrumented clone stay in lock-step. -/
lemma issLoop_trace (sr P thr : ℚ) :
    ∀ (fuel : ℕ) (w : List ℚ) (acc : List ℚ) (accT : List (ℤ × ℚ)),
      acc = accT.map (fun p => (p.1 : ℚ) * (sr / P)) →
      (issLoop sr P thr fuel w acc).1 =
        (issTraceLoop sr P thr fuel w accT).map (fun p => (p.1 : ℚ) * (sr / P)) := by
  intro fuel
  induction fuel with
  | zero =>
      intro w acc accT hacc
      simpa [issLoop, issTraceLoop] using hacc
  | succ n ih =>
      intro w acc accT hacc
      rw [issLoop, issTraceLoop]
      dsimp only
      split <;> rename_i hbr
      · exact hacc
      · refine ih _ _ _ ?_
        rw [hacc, List.map_append]
        rfl

/-- Every recorded peak magnitude passed the threshold test. -/
lemma issTraceLoop_thr (sr P thr : ℚ) :
    ∀ (fuel : ℕ) (w : List ℚ) (accT : List (ℤ × ℚ)),
      (∀ p ∈ accT, thr ≤ p.2) →
      ∀ p ∈ issTraceLoop sr P thr fuel w accT, thr ≤ p.2 := by
  intro fuel
  induction fuel with
  | zero => intro w accT hacc; exact hacc
  | succ n ih =>
      intro w accT hacc
      rw [issTraceLoop]
      dsimp only
      split <;> rename_i hbr
      · exact hacc
      · refine ih _ _ ?_
        intro p hp
        rcases List.mem_append.mp hp with h | h
        · exact hacc p h
        · have : p = ((argmaxFrom w ((pyIntQ ((40:ℚ) / (sr / P))).toNat + 1)).2,
              (argmaxFrom w ((pyIntQ ((40:ℚ) / (sr / P))).toNat + 1)).1) := by
            simpa using h
          rw [this]
          push_neg at hbr
          exact hbr.1

/-- On an all-zero spectrum the loop stops immediately. -/
lemma issLoop_zero (sr P thr : ℚ) (hthr : 0 < thr) (n : ℕ) (K : ℕ) :
    (issLoop sr P thr K (List.replicate n 0) []).1 = [] := by
  cases K with
  | zero => rfl
  | succ m =>
      rw [issLoop]
      dsimp only
      rw [if_pos]
      left
      rcases argmaxFrom_spec (List.replicate n 0) ((pyIntQ ((40:ℚ) / (sr / P))).toNat + 1) with
        h | ⟨i, hi, h1, h2⟩
      · rw [h]
        exact lt_of_lt_of_le (by norm_num) (le_of_lt hthr)
      · rw [hi]
        dsimp only
        rw [getD_replicate_zero]
        exact hthr

/-- C5 (claim): the peak picker returns at most `max_notes` entries; every
entry is a bin frequency `i·Δf` with `i ≥ start_bin`, hence above 40 Hz;
the instrumented trace (which maps exactly onto the output) shows the
magnitude read at each chosen bin before its suppression is ≥ the
threshold; and an all-zero spectrum yields the empty list. -/
theorem peak_picker_invariants (spectrum : List ℚ) (sr P thr : ℚ) (K : ℕ)
    (hsr : 0 < sr) (hP : 0 < P) (hthr : 0 < thr) :
    (iterative_spectral_subtraction spectrum sr P thr K).length ≤ K
    ∧ (∀ f ∈ iterative_spectral_subtraction spectrum sr P thr K,
        ∃ i : ℕ, (pyIntQ ((40 : ℚ) / (sr / P))).toNat + 1 ≤ i ∧ i < spectrum.length
          ∧ f = (i : ℚ) * (sr / P) ∧ 40 < f)
    ∧ (iterative_spectral_subtraction spectrum sr P thr K =
        (issTrace spectrum sr P thr K).map (fun p => (p.1 : ℚ) * (sr / P)))
    ∧ (∀ p ∈ issTrace spectrum sr P thr K, thr ≤ p.2)
    ∧ (∀ n : ℕ, iterative_spectral_subtraction (List.replicate n 0) sr P thr K = []) := by
  have hfr : 0 < sr / P := div_pos hsr hP
  refine ⟨?_, ?_, ?_, ?_, ?_⟩
  · simpa [iterative_spectral_subtraction] using issLoop_length sr P thr K spectrum []
  · intro f hf
    rcases issLoop_mem sr P thr spectrum.length K spectrum [] rfl f hf with h | ⟨i, h1, h2, h3⟩
    · cases h
    · refine ⟨i, h1, h2, h3, ?_⟩
      have hq0 : (0 : ℚ) ≤ 40 / (sr / P) := le_of_lt (div_pos (by norm_num) hfr)
      have htn : ((pyIntQ ((40 : ℚ) / (sr / P))).toNat : ℤ) = ⌊(40 : ℚ) / (sr / P)⌋ := by
        rw [pyIntQ, if_neg (not_lt.mpr hq0)]
        exact Int.toNat_of_nonneg (Int.floor_nonneg.mpr hq0)
      have hcast : (((pyIntQ ((40 : ℚ) / (sr / P))).toNat + 1 : ℕ) : ℚ) =
          (⌊(40 : ℚ) / (sr / P)⌋ : ℚ) + 1 := by
        push_cast [← htn]
        norm_cast
      have hgt : ((40 : ℚ) / (sr / P)) < (i : ℚ) := by
        have h4 : (((pyIntQ ((40 : ℚ) / (sr / P))).toNat + 1 : ℕ) : ℚ) ≤ (i : ℚ) := by
          exact_mod_cast h1
        rw [hcast] at h4
        exact lt_of_lt_of_le (Int.lt_floor_add_one _) h4
      rw [h3]
      exact (div_lt_iff₀ hfr).mp hgt
  · exact issLoop_trace sr P thr K spectrum [] [] rfl
  · exact issTraceLoop_thr sr P thr K spectrum [] (fun p hp => absurd hp (List.not_mem_nil p))
  · intro n
    exact issLoop_zero sr P thr hthr n K

/-- C5 witness: the invariants at a concrete spectrum and parameters. -/
theorem peak_picker_invariants_witness :
    (iterative_spectral_subtraction [0, 0, 0, 0, 0, 1, 0, 0] 100 10 (1/10) 6).length ≤ 6
    ∧ (∀ p ∈ issTrace [0, 0, 0, 0, 0, 1, 0, 0] 100 10 (1/10) 6, (1/10 : ℚ) ≤ p.2)
    ∧ (∀ n : ℕ, iterative_spectral_subtraction (List.replicate n 0) 100 10 (1/10) 6 = []) := by
  have h := peak_picker_invariants [0, 0, 0, 0, 0, 1, 0, 0] 100 10 (1/10) 6
    (by norm_num) (by norm_num) (by norm_num)
  exact ⟨h.1, h.2.2.2.1, h.2.2.2.2⟩

lemma getD_set_self (l : List ℚ) (i : ℕ) (v : ℚ) (h : i < l.length) :
    (l.set i v).getD i 0 = v := by
  rw [List.getD_eq_getElem?_getD, List.getElem?_set_self h]
  rfl

lemma getD_set_ne (l : List ℚ) (i j : ℕ) (v : ℚ) (h : i ≠ j) :
    (l.set i v).getD j 0 = l.getD j 0 := by
  rw [List.getD_eq_getElem?_getD, List.getElem?_set_ne h, ← List.getD_eq_getElem?_getD]

/-! Concrete evaluation steps for the duplicate-selection run: spectrum
`[0,0,0,0,0,1,0,0]`, sample rate 100, padded size 10, threshold 0.1. -/

lemma cexStart : (pyIntQ ((40 : ℚ) / (100 / 10))).toNat + 1 = 5 := by
  norm_num [pyIntQ]
  decide

lemma cexSup1 : suppressBin [0, 0, 0, 0, 0, 1, 0, 0] 5 = [0, 0, 0, 0, 0, 1/10, 0, 0] := by
  rw [suppressBin, if_pos (by decide), if_pos (by decide), if_pos (by decide)]
  show ([0, 0, 0, 0, ((0:ℚ)) * (3/10), (1:ℚ) * (1/10), (0:ℚ) * (3/10), 0] : List ℚ) = _
  norm_num

lemma cexSup2 : suppressBin [0, 0, 0, 0, 0, 1/10, 0, 0] 5 = [0, 0, 0, 0, 0, 1/100, 0, 0] := by
  rw [suppressBin, if_pos (by decide), if_pos (by decide), if_pos (by decide)]
  show ([0, 0, 0, 0, ((0:ℚ)) * (3/10), ((1:ℚ)/10) * (1/10), (0:ℚ) * (3/10), 0] : List ℚ) = _
  norm_num

lemma cexId (v : ℚ) (hb : ℤ) (h : 8 ≤ hb) :
    suppressBin [0, 0, 0, 0, 0, v, 0, 0] hb = [0, 0, 0, 0, 0, v, 0, 0] := by
  rw [suppressBin, if_neg (by show ¬ hb < (8 : ℤ); omega)]

lemma cexP1 : pyRoundQ ((50 : ℚ) * ((1 : ℕ) : ℚ) / (100 / 10)) = 5 := by
  norm_num [pyRoundQ, round_eq]

lemma cexP2 : pyRoundQ ((50 : ℚ) * ((2 : ℕ) : ℚ) / (100 / 10)) = 10 := by
  norm_num [pyRoundQ, round_eq]

lemma cexP3 : pyRoundQ ((50 : ℚ) * ((3 : ℕ) : ℚ) / (100 / 10)) = 15 := by
  norm_num [pyRoundQ, round_eq]

lemma cexP4 : pyRoundQ ((50 : ℚ) * ((4 : ℕ) : ℚ) / (100 / 10)) = 20 := by
  norm_num [pyRoundQ, round_eq]

lemma cexP5 : pyRoundQ ((50 : ℚ) * ((5 : ℕ) : ℚ) / (100 / 10)) = 25 := by
  norm_num [pyRoundQ, round_eq]

lemma cexP6 : pyRoundQ ((50 : ℚ) * ((6 : ℕ) : ℚ) / (100 / 10)) = 30 := by
  norm_num [pyRoundQ, round_eq]

lemma cexP7 : pyRoundQ ((50 : ℚ) * ((7 : ℕ) : ℚ) / (100 / 10)) = 35 := by
  norm_num [pyRoundQ, round_eq]

lemma cexP8 : pyRoundQ ((50 : ℚ) * ((8 : ℕ) : ℚ) / (100 / 10)) = 40 := by
  norm_num [pyRoundQ, round_eq]

lemma cexP9 : pyRoundQ ((50 : ℚ) * ((9 : ℕ) : ℚ) / (100 / 10)) = 45 := by
  norm_num [pyRoundQ, round_eq]

lemma cexP10 : pyRoundQ ((50 : ℚ) * ((10 : ℕ) : ℚ) / (100 / 10)) = 50 := by
  norm_num [pyRoundQ, round_eq]

lemma cexSub1 : subtractHarmonics [0, 0, 0, 0, 0, 1, 0, 0] 50 (100 / 10) 10 =
    [0, 0, 0, 0, 0, 1/10, 0, 0] := by
  rw [subtractHarmonics, show List.range' 1 10 = [1, 2, 3, 4, 5, 6, 7, 8, 9, 10] from rfl]
  simp only [List.foldl_cons, List.foldl_nil]
  rw [cexP1, cexSup1, cexP2, cexId _ _ (by norm_num), cexP3, cexId _ _ (by norm_num), cexP4,
    cexId _ _ (by norm_num), cexP5, cexId _ _ (by norm_num), cexP6, cexId _ _ (by norm_num),
    cexP7, cexId _ _ (by norm_num), cexP8, cexId _ _ (by norm_num), cexP9,
    cexId _ _ (by norm_num), cexP10, cexId _ _ (by norm_num)]

lemma cexSub2 : subtractHarmonics [0, 0, 0, 0, 0, 1/10, 0, 0] 50 (100 / 10) 10 =
    [0, 0, 0, 0, 0, 1/100, 0, 0] := by
  rw [subtractHarmonics, show List.range' 1 10 = [1, 2, 3, 4, 5, 6, 7, 8, 9, 10] from rfl]
  simp only [List.foldl_cons, List.foldl_nil]
  rw [cexP1, cexSup2, cexP2, cexId _ _ (by norm_num), cexP3, cexId _ _ (by norm_num), cexP4,
    cexId _ _ (by norm_num), cexP5, cexId _ _ (by norm_num), cexP6, cexId _ _ (by norm_num),
    cexP7, cexId _ _ (by norm_num), cexP8, cexId _ _ (by norm_num), cexP9,
    cexId _ _ (by norm_num), cexP10, cexId _ _ (by norm_num)]

lemma cexArg1 : argmaxFrom [0, 0, 0, 0, 0, (1:ℚ), 0, 0] 5 = (1, 5) := by
  rw [argmaxFrom, show List.range' 5 ([0, 0, 0, 0, 0, (1:ℚ), 0, 0].length - 5) = [5, 6, 7] from rfl]
  simp only [List.foldl_cons, List.foldl_nil]
  norm_num

lemma cexArg2 : argmaxFrom [0, 0, 0, 0, 0, (1:ℚ)/10, 0, 0] 5 = (1/10, 5) := by
  rw [argmaxFrom,
    show List.range' 5 ([0, 0, 0, 0, 0, (1:ℚ)/10, 0, 0].length - 5) = [5, 6, 7] from rfl]
  simp only [List.foldl_cons, List.foldl_nil]
  norm_num

lemma cexArg3 : argmaxFrom [0, 0, 0, 0, 0, (1:ℚ)/100, 0, 0] 5 = (1/100, 5) := by
  rw [argmaxFrom,
    show List.range' 5 ([0, 0, 0, 0, 0, (1:ℚ)/100, 0, 0].length - 5) = [5, 6, 7] from rfl]
  simp only [List.foldl_cons, List.foldl_nil]
  norm_num

/-- C2 counterexample: on the spectrum with a single unit peak at bin 5
(sample rate 100, padded size 10, threshold 0.1) the picker reports the
same bin-5 frequency 50 Hz for two distinct output entries, and the
suppression pass leaves 1/10 — not 0 — at the suppressed centre bin. -/
theorem suppression_reselects_bin_counterexample :
    iterative_spectral_subtraction [0, 0, 0, 0, 0, 1, 0, 0] 100 10 (1/10) 6 = [50, 50]
    ∧ subtractHarmonics [0, 0, 0, 0, 0, 1, 0, 0] 50 (100 / 10) 10 =
      [0, 0, 0, 0, 0, 1/10, 0, 0] := by
  refine ⟨?_, cexSub1⟩
  rw [iterative_spectral_subtraction]
  rw [show (6 : ℕ) = 5 + 1 from rfl, issLoop]
  dsimp only
  rw [cexStart, cexArg1, if_neg (by norm_num),
    show ((((1 : ℚ), (5 : ℤ)).2 : ℤ) : ℚ) * (100 / 10) = 50 by norm_num, cexSub1]
  rw [show (5 : ℕ) = 4 + 1 from rfl, issLoop]
  dsimp only
  rw [cexStart, cexArg2, if_neg (by norm_num),
    show ((((1 : ℚ)/10, (5 : ℤ)).2 : ℤ) : ℚ) * (100 / 10) = 50 by norm_num, cexSub2]
  rw [show (4 : ℕ) = 3 + 1 from rfl, issLoop]
  dsimp only
  rw [cexStart, cexArg3, if_pos (by norm_num)]
  norm_num

/-- C2 amended: the suppression around a selected bin multiplies the centre
bin by 0.1 and the in-bounds neighbours at ±1 by 0.3 — it attenuates rather
than zeroes — so a bin whose attenuated magnitude still reaches the
threshold can be selected again within the same call. -/
theorem suppression_attenuates_amended (w : List ℚ) (hb : ℕ) (hlt : hb < w.length) :
    ((suppressBin w (hb : ℤ)).getD hb 0 = w.getD hb 0 * (1/10))
    ∧ (0 < hb → (suppressBin w (hb : ℤ)).getD (hb - 1) 0 = w.getD (hb - 1) 0 * (3/10))
    ∧ (hb + 1 < w.length → (suppressBin w (hb : ℤ)).getD (hb + 1) 0 = w.getD (hb + 1) 0 * (3/10)) := by
  have hlt' : (hb : ℤ) < (w.length : ℤ) := by exact_mod_cast hlt
  have e1 : ((hb : ℤ) + 1).toNat = hb + 1 := by omega
  refine ⟨?_, ?_, ?_⟩
  · rw [suppressBin, if_pos hlt']
    dsimp only
    rw [Int.toNat_natCast]
    by_cases h1 : (hb : ℤ) < (w.length : ℤ) - 1
    · rw [if_pos h1, e1, getD_set_ne _ _ _ _ (by omega)]
      by_cases h0 : (hb : ℤ) > 0
      · rw [if_pos h0, show ((hb : ℤ) - 1).toNat = hb - 1 by omega,
          getD_set_ne _ _ _ _ (by omega), getD_set_self _ _ _ hlt]
      · rw [if_neg h0, getD_set_self _ _ _ hlt]
    · rw [if_neg h1]
      by_cases h0 : (hb : ℤ) > 0
      · rw [if_pos h0, show ((hb : ℤ) - 1).toNat = hb - 1 by omega,
          getD_set_ne _ _ _ _ (by omega), getD_set_self _ _ _ hlt]
      · rw [if_neg h0, getD_set_self _ _ _ hlt]
  · intro hp
    have h0 : (hb : ℤ) > 0 := by omega
    rw [suppressBin, if_pos hlt']
    dsimp only
    rw [Int.toNat_natCast]
    by_cases h1 : (hb : ℤ) < (w.length : ℤ) - 1
    · rw [if_pos h1, e1, if_pos h0, show ((hb : ℤ) - 1).toNat = hb - 1 by omega,
        getD_set_ne _ _ _ _ (by omega),
        getD_set_self _ _ _ (by rw [List.length_set]; omega),
        getD_set_ne _ _ _ _ (by omega)]
    · rw [if_neg h1, if_pos h0, show ((hb : ℤ) - 1).toNat = hb - 1 by omega,
        getD_set_self _ _ _ (by rw [List.length_set]; omega),
        getD_set_ne _ _ _ _ (by omega)]
  · intro hp
    have h1 : (hb : ℤ) < (w.length : ℤ) - 1 := by omega
    rw [suppressBin, if_pos hlt']
    dsimp only
    rw [Int.toNat_natCast, if_pos h1, e1]
    by_cases h0 : (hb : ℤ) > 0
    · rw [if_pos h0, show ((hb : ℤ) - 1).toNat = hb - 1 by omega,
        getD_set_self _ _ _ (by rw [List.length_set, List.length_set]; omega),
        getD_set_ne _ _ _ _ (by omega), getD_set_ne _ _ _ _ (by omega)]
    · rw [if_neg h0,
        getD_set_self _ _ _ (by rw [List.length_set]; omega),
        getD_set_ne _ _ _ _ (by omega)]

/-- C2 amended witness: suppression at bin 1 of [1, 2, 3]. -/
theorem suppression_attenuates_amended_witness :
    ((suppressBin [1, 2, 3] ((1 : ℕ) : ℤ)).getD 1 0 = (2 : ℚ) * (1/10))
    ∧ ((suppressBin [1, 2, 3] ((1 : ℕ) : ℤ)).getD 0 0 = (1 : ℚ) * (3/10))
    ∧ ((suppressBin [1, 2, 3] ((1 : ℕ) : ℤ)).getD 2 0 = (3 : ℚ) * (3/10)) := by
  have h := suppression_attenuates_amended [1, 2, 3] 1 (by norm_num)
  exact ⟨h.1, h.2.1 (by norm_num), h.2.2 (by norm_num)⟩

/-! ### MIDI interface: frequency conversion -/

lemma pyRoundR_intCast (n : ℤ) : pyRoundR (n : ℝ) = n := by
  rw [pyRoundR, if_neg, round_intCast]
  rw [Int.floor_intCast]
  norm_num

lemma pyRoundR_of_bounds (x : ℝ) (k : ℤ) (h1 : (k : ℝ) - 1/2 < x) (h2 : x < (k : ℝ) + 1/2) :
    pyRoundR x = k := by
  have hne : x - ⌊x⌋ ≠ 1/2 := by
    intro heq
    have hx : x = (⌊x⌋ : ℝ) + 1/2 := by linarith
    have hk1 : (k : ℝ) < (⌊x⌋ : ℝ) + 1 := by linarith
    have hk2 : (⌊x⌋ : ℝ) < (k : ℝ) := by linarith
    have e1 : k < ⌊x⌋ + 1 := by exact_mod_cast hk1
    have e2 : ⌊x⌋ < k := by exact_mod_cast hk2
    omega
  rw [pyRoundR, if_neg hne, round_eq, Int.floor_eq_iff]
  refine ⟨by linarith, by linarith⟩

lemma f2m_440 : _freq_to_midi 440 = 69 := by
  rw [_freq_to_midi, if_neg (by norm_num)]
  rw [show (((440 : ℚ) : ℝ)) / 440 = 1 by norm_num, Real.logb_one]
  rw [show (69 : ℝ) + 12 * 0 = ((69 : ℤ) : ℝ) by norm_num, pyRoundR_intCast]

lemma f2m_110 : _freq_to_midi 110 = 45 := by
  rw [_freq_to_midi, if_neg (by norm_num)]
  rw [show (((110 : ℚ) : ℝ)) / 440 = (2 : ℝ) ^ ((-2 : ℤ) : ℝ) by
    rw [Real.rpow_intCast]; norm_num]
  rw [Real.logb_rpow (by norm_num) (by norm_num)]
  rw [show (69 : ℝ) + 12 * ((-2 : ℤ) : ℝ) = ((45 : ℤ) : ℝ) by norm_num, pyRoundR_intCast]

lemma f2m_low : _freq_to_midi (55/64) = -39 := by
  rw [_freq_to_midi, if_neg (by norm_num)]
  rw [show (((55/64 : ℚ) : ℝ)) / 440 = (2 : ℝ) ^ ((-9 : ℤ) : ℝ) by
    rw [Real.rpow_intCast]; norm_num]
  rw [Real.logb_rpow (by norm_num) (by norm_num)]
  rw [show (69 : ℝ) + 12 * ((-9 : ℤ) : ℝ) = ((-39 : ℤ) : ℝ) by norm_num, pyRoundR_intCast]

lemma f2m_8241 : _freq_to_midi (8241/100) = 40 := by
  rw [_freq_to_midi, if_neg (by norm_num)]
  have hx : (((8241/100 : ℚ) : ℝ)) / 440 = (8241 / 44000 : ℝ) := by norm_num
  rw [hx]
  have hxpos : (0 : ℝ) < 8241 / 44000 := by norm_num
  have hlow : (2 : ℝ) ^ ((-59 : ℝ) / 24) < 8241 / 44000 := by
    have h24 : ((2 : ℝ) ^ ((-59 : ℝ) / 24)) ^ (24 : ℕ) < (8241 / 44000 : ℝ) ^ (24 : ℕ) := by
      rw [← Real.rpow_natCast ((2 : ℝ) ^ ((-59 : ℝ) / 24)) 24, ← Real.rpow_mul (by norm_num)]
      rw [show (-59 : ℝ) / 24 * (24 : ℕ) = ((-59 : ℤ) : ℝ) by push_cast; ring]
      rw [Real.rpow_intCast]
      norm_num
    exact lt_of_pow_lt_pow_left₀ 24 (le_of_lt hxpos) h24
  have hhigh : (8241 / 44000 : ℝ) < (2 : ℝ) ^ ((-57 : ℝ) / 24) := by
    have h24 : (8241 / 44000 : ℝ) ^ (24 : ℕ) < ((2 : ℝ) ^ ((-57 : ℝ) / 24)) ^ (24 : ℕ) := by
      rw [← Real.rpow_natCast ((2 : ℝ) ^ ((-57 : ℝ) / 24)) 24, ← Real.rpow_mul (by norm_num)]
      rw [show (-57 : ℝ) / 24 * (24 : ℕ) = ((-57 : ℤ) : ℝ) by push_cast; ring]
      rw [Real.rpow_intCast]
      norm_num
    exact lt_of_pow_lt_pow_left₀ 24 (le_of_lt (Real.rpow_pos_of_pos (by norm_num) _)) h24
  have hL1 : (-59 : ℝ) / 24 < Real.logb 2 (8241 / 44000) := by
    have := Real.logb_lt_logb (b := 2) (by norm_num)
      (Real.rpow_pos_of_pos (by norm_num) _) hlow
    rwa [Real.logb_rpow (by norm_num) (by norm_num)] at this
  have hL2 : Real.logb 2 (8241 / 44000) < (-57 : ℝ) / 24 := by
    have := Real.logb_lt_logb (b := 2) (by norm_num) hxpos hhigh
    rwa [Real.logb_rpow (by norm_num) (by norm_num)] at this
  apply pyRoundR_of_bounds _ 40
  · push_cast
    linarith
  · push_cast
    linarith

/-- C4 counterexample: `_freq_to_midi` applies no clamping — at the positive
frequency 55/64 Hz it returns −39, below 0, where a clamped conversion would
return a value inside [0,127]. -/
theorem freq_to_midi_not_clamped_counterexample :
    _freq_to_midi (55/64) = -39 ∧ _freq_to_midi (55/64) < 0 :=
  ⟨f2m_low, by rw [f2m_low]; norm_num⟩

/-- C4 amended: the conversion is round(69 + 12·log2(f/440)) with NO
clamping; the three reference values hold: midi(440) = 69, midi(110) = 45,
midi(82.41) = 40. -/
theorem freq_to_midi_values_amended :
    _freq_to_midi 440 = 69 ∧ _freq_to_midi 110 = 45 ∧ _freq_to_midi (8241/100) = 40 :=
  ⟨f2m_440, f2m_110, f2m_8241⟩

/-! ### MIDI tracker: concrete trace (missing debounce) -/

/-- C1 (code-bug evidence): with an open port, a tick with {440 Hz, 110 Hz}
turns notes 69 and 45 on; the very next tick with {440 Hz} alone already
emits NoteOff(45) — after a single missing tick, not after
FRAMES_TO_KILL = 3 consecutive missing ticks as the spec and
tests/test_midi.py demand. -/
theorem update_notes_immediate_noteoff :
    (MidiInterface.update_notes ⟨true, []⟩ [440, 110]).2 =
      [MidiMsg.noteOn 69 80, MidiMsg.noteOn 45 80]
    ∧ ((MidiInterface.update_notes ⟨true, []⟩ [440, 110]).1.update_notes [440]).2 =
      [MidiMsg.noteOff 45] := by
  have hcur1 : ((([440, 110] : List ℚ).filter (fun f => 0 < f)).map _freq_to_midi).dedup
      = [69, 45] := by
    rw [show ([440, 110] : List ℚ).filter (fun f => 0 < f) = [440, 110] from by decide,
      List.map_cons, List.map_cons, List.map_nil, f2m_440, f2m_110]
    decide
  have hcur2 : ((([440] : List ℚ).filter (fun f => 0 < f)).map _freq_to_midi).dedup = [69] := by
    rw [show ([440] : List ℚ).filter (fun f => 0 < f) = [440] from by decide,
      List.map_cons, List.map_nil, f2m_440]
    decide
  have h1 : MidiInterface.update_notes ⟨true, []⟩ [440, 110] =
      (⟨true, [(69, 80), (45, 80)]⟩, [MidiMsg.noteOn 69 80, MidiMsg.noteOn 45 80]) := by
    rw [MidiInterface.update_notes, hcur1]
    decide
  have h2 : MidiInterface.update_notes ⟨true, [(69, 80), (45, 80)]⟩ [440] =
      (⟨true, [(69, 80)]⟩, [MidiMsg.noteOff 45]) := by
    rw [MidiInterface.update_notes, hcur2]
    decide
  refine ⟨by rw [h1], ?_⟩
  rw [h1]
  show (MidiInterface.update_notes ⟨true, [(69, 80), (45, 80)]⟩ [440]).2 = _
  rw [h2]

/-! ### MIDI tracker: closed-port and out-of-range no-ops -/

lemma note_on_closed (m : MidiInterface) (note : ℤ) (v : ℕ) (hm : m.port_open = false) :
    m.note_on note v = (m, []) := by
  rw [MidiInterface.note_on, if_neg]
  rintro ⟨h, -⟩
  rw [hm] at h
  exact Bool.false_ne_true h

lemma note_off_closed (m : MidiInterface) (note : ℤ) (hm : m.port_open = false) :
    m.note_off note = (m, []) := by
  rw [MidiInterface.note_off, if_neg]
  rintro ⟨h, -⟩
  rw [hm] at h
  exact Bool.false_ne_true h

lemma offFold_closed (l : List ℤ) : ∀ (m : MidiInterface) (acc : List MidiMsg),
    m.port_open = false →
    l.foldl (fun (a : MidiInterface × List MidiMsg) n =>
      let r := a.1.note_off n
      (r.1, a.2 ++ r.2)) (m, acc) = (m, acc) := by
  induction l with
  | nil =>
      intro m acc hm
      rfl
  | cons n t ih =>
      intro m acc hm
      rw [List.foldl_cons]
      dsimp only
      rw [note_off_closed m n hm]
      dsimp only
      rw [List.append_nil]
      exact ih m acc hm

lemma onFold_closed (l : List ℤ) : ∀ (m : MidiInterface) (acc : List MidiMsg),
    m.port_open = false →
    l.foldl (fun (a : MidiInterface × List MidiMsg) n =>
      if (dictKeys a.1.active_notes).contains n then a
      else
        let r := a.1.note_on n 80
        (r.1, a.2 ++ r.2)) (m, acc) = (m, acc) := by
  induction l with
  | nil =>
      intro m acc hm
      rfl
  | cons n t ih =>
      intro m acc hm
      rw [List.foldl_cons]
      dsimp only
      by_cases hc : (dictKeys m.active_notes).contains n = true
      · rw [if_pos (by exact hc)]
        exact ih m acc hm
      · rw [if_neg (by exact hc)]
        rw [note_on_closed m n 80 hm]
        dsimp only
        rw [List.append_nil]
        exact ih m acc hm

/-- C10 (claim): with the port closed, `update_notes` sends no messages and
leaves the whole interface state unchanged; `note_on` and `note_off` are
no-ops in both effect and state when the port is closed or the note lies
outside [0,127]. -/
theorem closed_port_update_is_noop (m : MidiInterface) (freqs : List ℚ) (note : ℤ) (v : ℕ) :
    (m.port_open = false →
      m.update_notes freqs = (m, []) ∧ m.note_on note v = (m, []) ∧ m.note_off note = (m, []))
    ∧ (note < 0 ∨ 127 < note → m.note_on note v = (m, []) ∧ m.note_off note = (m, [])) := by
  constructor
  · intro hm
    refine ⟨?_, note_on_closed m note v hm, note_off_closed m note hm⟩
    rw [MidiInterface.update_notes]
    rw [offFold_closed _ _ _ hm, onFold_closed _ _ _ hm]
  · intro hrange
    constructor
    · rw [MidiInterface.note_on, if_neg]
      rintro ⟨-, h1, h2⟩
      rcases hrange with h | h <;> omega
    · rw [MidiInterface.note_off, if_neg]
      rintro ⟨-, h1, h2⟩
      rcases hrange with h | h <;> omega

/-- C10 witness: concrete closed-port and out-of-range no-ops. -/
theorem closed_port_update_is_noop_witness :
    MidiInterface.update_notes ⟨false, []⟩ [] = (⟨false, []⟩, [])
    ∧ MidiInterface.note_on ⟨false, []⟩ 200 64 = (⟨false, []⟩, [])
    ∧ MidiInterface.note_off ⟨false, []⟩ 200 = (⟨false, []⟩, []) :=
  (closed_port_update_is_noop ⟨false, []⟩ [] 200 64).1 rfl

/-! ### MIDI tracker: well-paired message stream -/

lemma altRun_append (e : Bool) (l1 l2 : List Bool) :
    altRun e (l1 ++ l2) = (altRun e l1).bind (fun f => altRun f l2) := by
  induction l1 generalizing e with
  | nil => simp [altRun]
  | cons b t ih =>
      by_cases hb : b = e
      · simp [altRun, hb, ih]
      · simp [altRun, hb]

lemma msgsFor_append (n : ℤ) (l1 l2 : List MidiMsg) :
    msgsFor n (l1 ++ l2) = msgsFor n l1 ++ msgsFor n l2 := by
  simp [msgsFor, List.filter_append]

lemma msgsFor_on_self (n : ℤ) (v : ℕ) : msgsFor n [MidiMsg.noteOn n v] = [true] := by
  simp [msgsFor, MidiMsg.note, MidiMsg.isOn]

lemma msgsFor_on_ne (n x : ℤ) (v : ℕ) (h : ¬ n = x) : msgsFor x [MidiMsg.noteOn n v] = [] := by
  simp [msgsFor, MidiMsg.note, h]

lemma msgsFor_off_self (n : ℤ) : msgsFor n [MidiMsg.noteOff n] = [false] := by
  simp [msgsFor, MidiMsg.note, MidiMsg.isOn]

lemma msgsFor_off_ne (n x : ℤ) (h : ¬ n = x) : msgsFor x [MidiMsg.noteOff n] = [] := by
  simp [msgsFor, MidiMsg.note, h]

lemma contains_eq_decide_mem (l : List ℤ) (k : ℤ) : l.contains k = decide (k ∈ l) := by
  simp [List.contains]

lemma not_mem_of_contains_false (l : List ℤ) (k : ℤ) (h : l.contains k = false) : k ∉ l := by
  rw [contains_eq_decide_mem] at h
  simpa using h

lemma dictKeys_dictSet_not_mem (l : List (ℤ × ℕ)) (k : ℤ) (v : ℕ)
    (h : (dictKeys l).contains k = false) :
    dictKeys (dictSet l k v) = dictKeys l ++ [k] := by
  rw [dictSet, if_neg (by rw [h]; exact Bool.false_ne_true), dictKeys, dictKeys, List.map_append]
  rfl

lemma dictKeys_dictRemove (l : List (ℤ × ℕ)) (k : ℤ) :
    dictKeys (dictRemove l k) = (dictKeys l).filter (fun x => x ≠ k) := by
  rw [dictRemove, dictKeys, dictKeys]
  induction l with
  | nil => rfl
  | cons p t ih =>
      simp only [List.filter_cons, List.map_cons]
      by_cases h : p.1 = k
      · rw [if_neg (by simp [h]), if_neg (by simp [h])]
        exact ih
      · rw [if_pos (by simp [h]), if_pos (by simp [h]), List.map_cons, ih]

lemma contains_append_self (l : List ℤ) (n : ℤ) : (l ++ [n]).contains n = true := by
  rw [contains_eq_decide_mem]
  simp

lemma contains_append_ne (l : List ℤ) (n x : ℤ) (h : ¬ x = n) :
    (l ++ [n]).contains x = l.contains x := by
  rw [contains_eq_decide_mem, contains_eq_decide_mem]
  simp [h]

lemma contains_filter_self (l : List ℤ) (k : ℤ) :
    (l.filter (fun x => x ≠ k)).contains k = false := by
  rw [contains_eq_decide_mem]
  simp

lemma contains_filter_ne (l : List ℤ) (k x : ℤ) (h : ¬ x = k) :
    (l.filter (fun x => x ≠ k)).contains x = l.contains x := by
  rw [contains_eq_decide_mem, contains_eq_decide_mem]
  simp [h]

lemma trackerInv_of (m : MidiInterface) (msgs : List MidiMsg)
    (h1 : (dictKeys m.active_notes).Nodup)
    (h2 : ∀ n : ℤ, altRun true (msgsFor n msgs) = some (!(dictKeys m.active_notes).contains n)) :
    trackerInv m msgs := ⟨h1, h2⟩

lemma note_on_inv (m : MidiInterface) (msgs : List MidiMsg) (n : ℤ) (v : ℕ)
    (hInv : trackerInv m msgs) (hn : (dictKeys m.active_notes).contains n = false) :
    trackerInv (m.note_on n v).1 (msgs ++ (m.note_on n v).2) := by
  obtain ⟨hnd, halt⟩ := hInv
  by_cases hcond : m.port_open = true ∧ 0 ≤ n ∧ n ≤ 127
  · rw [MidiInterface.note_on, if_pos hcond]
    refine trackerInv_of _ _ ?_ ?_
    · dsimp only
      rw [dictKeys_dictSet_not_mem _ _ _ hn]
      refine List.Nodup.append hnd (List.nodup_singleton n) ?_
      intro x hx hx1
      rw [List.mem_singleton] at hx1
      subst hx1
      exact not_mem_of_contains_false _ _ hn hx
    · intro x
      dsimp only
      rw [msgsFor_append, altRun_append, halt x, dictKeys_dictSet_not_mem _ _ _ hn]
      by_cases hx : x = n
      · subst hx
        rw [hn, msgsFor_on_self, contains_append_self]
        simp [altRun]
      · rw [msgsFor_on_ne _ _ _ (fun h => hx h.symm), contains_append_ne _ _ _ hx]
        simp [altRun]
  · rw [MidiInterface.note_on, if_neg hcond]
    rw [show ((m, ([] : List MidiMsg)).1) = m from rfl,
      show ((m, ([] : List MidiMsg)).2) = [] from rfl, List.append_nil]
    exact ⟨hnd, halt⟩

lemma note_off_inv (m : MidiInterface) (msgs : List MidiMsg) (n : ℤ)
    (hInv : trackerInv m msgs) (hn : (dictKeys m.active_notes).contains n = true) :
    trackerInv (m.note_off n).1 (msgs ++ (m.note_off n).2)
    ∧ ∀ x : ℤ, ¬ x = n →
        (dictKeys (m.note_off n).1.active_notes).contains x
          = (dictKeys m.active_notes).contains x := by
  obtain ⟨hnd, halt⟩ := hInv
  by_cases hcond : m.port_open = true ∧ 0 ≤ n ∧ n ≤ 127
  · rw [MidiInterface.note_off, if_pos hcond]
    constructor
    · refine trackerInv_of _ _ ?_ ?_
      · dsimp only
        rw [dictKeys_dictRemove]
        exact List.Nodup.filter _ hnd
      · intro x
        dsimp only
        rw [msgsFor_append, altRun_append, halt x, dictKeys_dictRemove]
        by_cases hx : x = n
        · subst hx
          rw [hn, msgsFor_off_self, contains_filter_self]
          simp [altRun]
        · rw [msgsFor_off_ne _ _ (fun h => hx h.symm), contains_filter_ne _ _ _ hx]
          simp [altRun]
    · intro x hx
      dsimp only
      rw [dictKeys_dictRemove, contains_filter_ne _ _ _ hx]
  · rw [MidiInterface.note_off, if_neg hcond]
    exact ⟨by rw [show ((m, ([] : List MidiMsg)).1) = m from rfl,
        show ((m, ([] : List MidiMsg)).2) = [] from rfl, List.append_nil]; exact ⟨hnd, halt⟩,
      fun x hx => rfl⟩

lemma offFold_inv (toOff : List ℤ) :
    ∀ (m : MidiInterface) (msgs acc : List MidiMsg), toOff.Nodup →
    (∀ x ∈ toOff, (dictKeys m.active_notes).contains x = true) →
    trackerInv m msgs →
    ∃ (p : MidiInterface × List MidiMsg) (ms : List MidiMsg),
      toOff.foldl (fun (a : MidiInterface × List MidiMsg) n =>
        let r := a.1.note_off n
        (r.1, a.2 ++ r.2)) (m, acc) = (p.1, acc ++ ms)
      ∧ trackerInv p.1 (msgs ++ ms) := by
  induction toOff with
  | nil =>
      intro m msgs acc hnd hmem hInv
      exact ⟨(m, acc), [], by simp, by simpa using hInv⟩
  | cons n t ih =>
      intro m msgs acc hnd hmem hInv
      rw [List.foldl_cons]
      obtain ⟨hInv1, hpres⟩ := note_off_inv m msgs n hInv (hmem n (List.mem_cons_self n t))
      have hmem1 : ∀ x ∈ t, (dictKeys (m.note_off n).1.active_notes).contains x = true := by
        intro x hx
        rw [hpres x (fun hxn => (List.nodup_cons.mp hnd).1 (hxn ▸ hx))]
        exact hmem x (List.mem_cons_of_mem n hx)
      obtain ⟨p, ms, heq, hInvp⟩ := ih (m.note_off n).1 (msgs ++ (m.note_off n).2)
        (acc ++ (m.note_off n).2) (List.nodup_cons.mp hnd).2 hmem1 hInv1
      exact ⟨p, (m.note_off n).2 ++ ms, by rw [heq, List.append_assoc],
        by rwa [List.append_assoc] at hInvp⟩

lemma onFold_inv (cur : List ℤ) :
    ∀ (m : MidiInterface) (msgs acc : List MidiMsg), trackerInv m msgs →
    ∃ (p : MidiInterface × List MidiMsg) (ms : List MidiMsg),
      cur.foldl (fun (a : MidiInterface × List MidiMsg) n =>
        if (dictKeys a.1.active_notes).contains n then a
        else
          let r := a.1.note_on n 80
          (r.1, a.2 ++ r.2)) (m, acc) = (p.1, acc ++ ms)
      ∧ trackerInv p.1 (msgs ++ ms) := by
  induction cur with
  | nil =>
      intro m msgs acc hInv
      exact ⟨(m, acc), [], by simp, by simpa using hInv⟩
  | cons n t ih =>
      intro m msgs acc hInv
      rw [List.foldl_cons]
      by_cases hc : (dictKeys m.active_notes).contains n = true
      · rw [if_pos (by exact hc)]
        exact ih m msgs acc hInv
      · rw [if_neg (by exact hc)]
        have hInv1 := note_on_inv m msgs n 80 hInv (by
          cases h : (dictKeys m.active_notes).contains n
          · rfl
          · exact absurd h hc)
        obtain ⟨p, ms, heq, hInvp⟩ := ih (m.note_on n 80).1 (msgs ++ (m.note_on n 80).2)
          (acc ++ (m.note_on n 80).2) hInv1
        exact ⟨p, (m.note_on n 80).2 ++ ms, by rw [heq, List.append_assoc],
          by rwa [List.append_assoc] at hInvp⟩

lemma update_notes_inv (m : MidiInterface) (msgs : List MidiMsg) (freqs : List ℚ)
    (hInv : trackerInv m msgs) :
    ∃ (p : MidiInterface × List MidiMsg),
      m.update_notes freqs = p ∧ trackerInv p.1 (msgs ++ p.2) := by
  rw [MidiInterface.update_notes]
  obtain ⟨hnd, halt⟩ := hInv
  set cur := ((freqs.filter (fun f => 0 < f)).map _freq_to_midi).dedup with hcur
  set toOff := (dictKeys m.active_notes).filter (fun n => ¬ cur.contains n) with htoOff
  have htoOffNodup : toOff.Nodup := List.Nodup.filter _ hnd
  have htoOffMem : ∀ x ∈ toOff, (dictKeys m.active_notes).contains x = true := by
    intro x hx
    rw [htoOff] at hx
    rw [contains_eq_decide_mem]
    simp [List.mem_filter.mp hx]
  obtain ⟨p1, ms1, heq1, hInv1⟩ := offFold_inv toOff m msgs [] htoOffNodup htoOffMem ⟨hnd, halt⟩
  rw [heq1]
  obtain ⟨p2, ms2, heq2, hInv2⟩ := onFold_inv cur p1.1 (msgs ++ ms1) ([] ++ ms1) hInv1
  rw [heq2]
  refine ⟨(p2.1, [] ++ ms1 ++ ms2), rfl, ?_⟩
  dsimp only
  rw [List.nil_append, ← List.append_assoc]
  exact hInv2

lemma runUpdates_inv (ticks : List (List ℚ)) :
    ∀ (m : MidiInterface) (msgs acc : List MidiMsg), trackerInv m msgs →
    ∃ (p : MidiInterface × List MidiMsg) (ms : List MidiMsg),
      ticks.foldl (fun (a : MidiInterface × List MidiMsg) freqs =>
        let r := a.1.update_notes freqs
        (r.1, a.2 ++ r.2)) (m, acc) = (p.1, acc ++ ms)
      ∧ trackerInv p.1 (msgs ++ ms) := by
  induction ticks with
  | nil =>
      intro m msgs acc hInv
      exact ⟨(m, acc), [], by simp, by simpa using hInv⟩
  | cons f t ih =>
      intro m msgs acc hInv
      rw [List.foldl_cons]
      obtain ⟨p, heq, hInvp⟩ := update_notes_inv m msgs f hInv
      rw [heq]
      obtain ⟨q, ms, heq2, hInvq⟩ := ih p.1 (msgs ++ p.2) (acc ++ p.2) hInvp
      exact ⟨q, p.2 ++ ms, by rw [heq2, List.append_assoc],
        by rwa [List.append_assoc] at hInvq⟩

lemma trackerInv_init (port : Bool) : trackerInv ⟨port, []⟩ [] := by
  constructor
  · exact List.nodup_nil
  · intro n
    rfl

/-- C9 (claim): over every sequence of `update_notes` ticks from a fresh
tracker (port open or closed), the emitted message stream is well-paired:
per note the messages strictly alternate NoteOn, NoteOff, … starting with
NoteOn — no duplicate NoteOns, no orphan NoteOffs. -/
theorem midi_stream_well_paired (port : Bool) (ticks : List (List ℚ)) :
    wellPaired (runUpdates ⟨port, []⟩ ticks).2 := by
  obtain ⟨p, ms, heq, hInv⟩ := runUpdates_inv ticks ⟨port, []⟩ [] [] (trackerInv_init port)
  rw [List.nil_append] at hInv
  rw [runUpdates, heq]
  intro n
  rw [show (p.1, ([] : List MidiMsg) ++ ms).2 = [] ++ ms from rfl, List.nil_append]
  rw [(hInv.2 n : _)]
  rfl

end PyPolyGuitar
